import Mathlib

/-!
Verification of the core text-processing logic of the chinda-eval repository:
the Thai-script-dominance classifier `is_mainly_thai`
(evalscope/benchmarks/code_switching/code_switching_adapter.py), the
reasoning-block stripper `strip_thinking_blocks` (evalscope/benchmarks/utils.py
and evalscope/benchmarks/live_code_bench/extract_utils.py), the markdown
code-block extractor `extract_code_block` (evalscope/benchmarks/utils.py), and
`extract_code_generation` (evalscope/benchmarks/live_code_bench/extract_utils.py).

Strings are modelled as `List Char` (Python iterates strings by code point).
The one external dependency, Python's `unicodedata.category`, is modelled as a
parameter `cat : Char → Bool` giving whether the character's general category
starts with one of P, S, M, Z, C; all theorems about the classifier are proved
for every such parameter.  Python regular-expression calls are modelled by
executable scanning functions that reproduce the leftmost, non-overlapping,
lazy-quantifier matching semantics of the concrete patterns used in the source.
-/

/-- Backtick character (code point 0x60), used for markdown fences. -/
def btick : Char := Char.ofNat 0x60

/-- The markdown fence marker, three backticks. -/
def fence : List Char := [btick, btick, btick]

/-- Whitespace characters of Python's `str.strip()` and regex `\s`
(Unicode whitespace as used by CPython for `str`). -/
def isPySpace (c : Char) : Bool :=
  decide (c.toNat = 0x20 ∨ c.toNat = 0x9 ∨ c.toNat = 0xA ∨ c.toNat = 0xD ∨
    c.toNat = 0xC ∨ c.toNat = 0xB ∨ c.toNat = 0x1C ∨ c.toNat = 0x1D ∨
    c.toNat = 0x1E ∨ c.toNat = 0x1F ∨ c.toNat = 0x85 ∨ c.toNat = 0xA0 ∨
    c.toNat = 0x1680 ∨ (0x2000 ≤ c.toNat ∧ c.toNat ≤ 0x200A) ∨
    c.toNat = 0x2028 ∨ c.toNat = 0x2029 ∨ c.toNat = 0x202F ∨
    c.toNat = 0x205F ∨ c.toNat = 0x3000)

/-- Python `str.lstrip()` on a list of characters. -/
def ltrim (l : List Char) : List Char := l.dropWhile isPySpace

/-- Python `str.rstrip()` on a list of characters. -/
def rtrim (l : List Char) : List Char := (l.reverse.dropWhile isPySpace).reverse

/-- Python `str.strip()` on a list of characters. -/
def pyStrip (l : List Char) : List Char := rtrim (ltrim l)

/-- Substring test: true iff `pat` occurs as a contiguous substring
(models Python's `pat in s`). -/
def containsSub (pat : List Char) : List Char → Bool
  | [] => pat.isPrefixOf []
  | c :: rest => pat.isPrefixOf (c :: rest) || containsSub pat rest

/-- Splits at the first occurrence of `pat`: returns the part strictly before
the occurrence and the part strictly after it, or `none` if `pat` does not
occur. -/
def splitAtFirst (pat : List Char) : List Char → Option (List Char × List Char)
  | [] => if pat.isPrefixOf ([] : List Char) then some ([], []) else none
  | c :: rest =>
    if pat.isPrefixOf (c :: rest) then some ([], List.drop pat.length (c :: rest))
    else
      match splitAtFirst pat rest with
      | some (pre, suf) => some (c :: pre, suf)
      | none => none

/-- Remainder after the first occurrence of `pat`, or `none` if absent. -/
def findDropList (pat : List Char) : List Char → Option (List Char)
  | [] => if pat.isPrefixOf ([] : List Char) then some [] else none
  | c :: rest =>
    if pat.isPrefixOf (c :: rest) then some (List.drop pat.length (c :: rest))
    else findDropList pat rest

/-- Models `re.sub(r'^.*?</think>', '', response, flags=re.DOTALL)` from
`is_mainly_thai`: with the anchored lazy pattern this deletes everything up to
and including the first occurrence of the literal `</think>`, and is the
identity when that literal is absent. -/
def stripToAfterThink (s : List Char) : List Char :=
  match findDropList ("</think>".toList) s with
  | some rest => rest
  | none => s

/-- One pass of `re.sub(st ++ '.*?' ++ en, '', text, flags=re.DOTALL)` with
literal start/end tags: left-to-right scan, at each position a match is the
start tag followed lazily by the earliest end tag; matches are removed and
scanning resumes after each match (non-overlapping).  Fuel-driven so that the
definition is structural; one unit of fuel is spent per scan position, and a
match always consumes at least as many characters as fuel, so initial fuel
equal to the text length always suffices. -/
def removeBlocksFuel (st en : List Char) : Nat → List Char → List Char
  | 0, l => l
  | _ + 1, [] => []
  | fuel + 1, c :: rest =>
    if st.isPrefixOf (c :: rest) then
      match splitAtFirst en (List.drop st.length (c :: rest)) with
      | some (_, rem) => removeBlocksFuel st en fuel rem
      | none => c :: removeBlocksFuel st en fuel rest
    else c :: removeBlocksFuel st en fuel rest

/-- Removal of all `st ... en` blocks, as performed by one `re.sub` call. -/
def removeBlocks (st en s : List Char) : List Char :=
  removeBlocksFuel st en s.length s

/-- Embedding of `strip_thinking_blocks` (evalscope/benchmarks/utils.py lines
8-31, identical to the copy in live_code_bench/extract_utils.py lines 6-14):
empty input is returned as is; otherwise `<think>...</think>` blocks are
removed, then `<thinking>...</thinking>` blocks, then the result is
whitespace-stripped. -/
def strip_thinking_blocks (text : List Char) : List Char :=
  if text = [] then text
  else
    pyStrip (removeBlocks ("<thinking>".toList) ("</thinking>".toList)
      (removeBlocks ("<think>".toList) ("</think>".toList) text))

/-! ### Character classification tables of `is_mainly_thai` -/

/-- Thai block U+0E00..U+0E7F (`thai_ranges` in the source). -/
def isThaiChar (c : Char) : Bool := decide (0x0E00 ≤ c.toNat ∧ c.toNat ≤ 0x0E7F)

/-- ASCII Latin letters A-Z / a-z (`english_ranges` in the source). -/
def isEnglishChar (c : Char) : Bool :=
  decide ((0x41 ≤ c.toNat ∧ c.toNat ≤ 0x5A) ∨ (0x61 ≤ c.toNat ∧ c.toNat ≤ 0x7A))

/-- ASCII digits 0-9 (`digit_range` in the source). -/
def isDigitChar (c : Char) : Bool := decide (0x30 ≤ c.toNat ∧ c.toNat ≤ 0x39)

/-- Code points of the string of basic ASCII punctuation added to
`allowed_symbols` (including the registered-sign character). -/
def asciiPunctSyms (n : Nat) : Bool :=
  decide (n = 0x2C ∨ n = 0x2E ∨ n = 0x3B ∨ n = 0x3A ∨ n = 0x21 ∨ n = 0x3F ∨
    n = 0x28 ∨ n = 0x29 ∨ n = 0x5B ∨ n = 0x5D ∨ n = 0x7B ∨ n = 0x7D ∨
    n = 0x27 ∨ n = 0x22 ∨ n = 0x2D ∨ n = 0x5F ∨ n = 0x2B ∨ n = 0x3D ∨
    n = 0x2A ∨ n = 0x2F ∨ n = 0x5C ∨ n = 0x3C ∨ n = 0x3E ∨ n = 0x40 ∨
    n = 0x23 ∨ n = 0x24 ∨ n = 0x25 ∨ n = 0x5E ∨ n = 0x26 ∨ n = 0x7C ∨
    n = 0x7E ∨ n = 0x60 ∨ n = 0xAE)

/-- Code points of the whitespace characters added to `allowed_symbols`. -/
def whitespaceSyms (n : Nat) : Bool :=
  decide (n = 0x20 ∨ n = 0x9 ∨ n = 0xA ∨ n = 0xD ∨ n = 0xC ∨ n = 0xB)

/-- Mathematical-operator ranges added to `allowed_symbols`. -/
def mathRangeSyms (n : Nat) : Bool :=
  decide ((0x2200 ≤ n ∧ n ≤ 0x22FF) ∨ (0x27C0 ≤ n ∧ n ≤ 0x27EF) ∨
    (0x2980 ≤ n ∧ n ≤ 0x29FF))

/-- Latin-with-diacritics ranges added to `allowed_symbols`
(Latin-1 Supplement, Latin Extended-A, Latin Extended-B). -/
def latinDiacriticSyms (n : Nat) : Bool :=
  decide ((0xC0 ≤ n ∧ n ≤ 0xFF) ∨ (0x100 ≤ n ∧ n ≤ 0x17F) ∨
    (0x180 ≤ n ∧ n ≤ 0x24F))

/-- General Punctuation range added to `allowed_symbols`. -/
def generalPunctSyms (n : Nat) : Bool := decide (0x2000 ≤ n ∧ n ≤ 0x206F)

/-- Explicit hyphen/dash characters added to `allowed_symbols`. -/
def hyphenSyms (n : Nat) : Bool :=
  decide (n = 0x2010 ∨ n = 0x2011 ∨ n = 0x2012 ∨ n = 0x2013 ∨ n = 0x2014 ∨
    n = 0x2015)

/-- The `emoji_ranges` table added to `allowed_symbols`. -/
def emojiRangeSyms (n : Nat) : Bool :=
  decide ((0x1F300 ≤ n ∧ n ≤ 0x1F5FF) ∨ (0x1F600 ≤ n ∧ n ≤ 0x1F64F) ∨
    (0x1F680 ≤ n ∧ n ≤ 0x1F6FF) ∨ (0x1F700 ≤ n ∧ n ≤ 0x1F77F) ∨
    (0x1F780 ≤ n ∧ n ≤ 0x1F7FF) ∨ (0x1F800 ≤ n ∧ n ≤ 0x1F8FF) ∨
    (0x1F900 ≤ n ∧ n ≤ 0x1F9FF) ∨ (0x1FA00 ≤ n ∧ n ≤ 0x1FA6F) ∨
    (0x1FA70 ≤ n ∧ n ≤ 0x1FAFF) ∨ (0x2600 ≤ n ∧ n ≤ 0x26FF) ∨
    (0x2700 ≤ n ∧ n ≤ 0x27BF) ∨ (0x1F1E6 ≤ n ∧ n ≤ 0x1F1FF) ∨
    (0x2300 ≤ n ∧ n ≤ 0x23FF) ∨ (0x2460 ≤ n ∧ n ≤ 0x24FF) ∨
    (0x25A0 ≤ n ∧ n ≤ 0x25FF) ∨ (0x2B00 ≤ n ∧ n ≤ 0x2BFF) ∨
    (0xFE00 ≤ n ∧ n ≤ 0xFE0F) ∨ (0xE0100 ≤ n ∧ n ≤ 0xE01EF))

/-- Zero-width characters and BOM added to `allowed_symbols`. -/
def zeroWidthSyms (n : Nat) : Bool :=
  decide (n = 0x200B ∨ n = 0x200C ∨ n = 0x200D ∨ n = 0xFEFF)

/-- Trademark and registered symbols added to `allowed_symbols`. -/
def trademarkSyms (n : Nat) : Bool :=
  decide (n = 0xA9 ∨ n = 0x2122 ∨ n = 0xAE ∨ n = 0x2117 ∨ n = 0x2120)

/-- Currency symbols added to `allowed_symbols` (duplicates in the source list
collapse in set semantics). -/
def currencySyms (n : Nat) : Bool :=
  decide (n = 0x20AC ∨ n = 0xA3 ∨ n = 0xA5 ∨ n = 0x20B9 ∨ n = 0x20A9 ∨
    n = 0x20BA ∨ n = 0x20B4 ∨ n = 0x20A6 ∨ n = 0x20B1 ∨ n = 0x20B2 ∨
    n = 0x20B5 ∨ n = 0x20B8 ∨ n = 0xA2 ∨ n = 0x20BD ∨ n = 0x20A8 ∨
    n = 0x20AA ∨ n = 0x20AB ∨ n = 0x20AE ∨ n = 0x20AF ∨ n = 0x20B0 ∨
    n = 0x20B3 ∨ n = 0x20BC ∨ n = 0x20BE ∨ n = 0x20BF)

/-- Superscript and subscript characters added to `allowed_symbols`. -/
def superSubSyms (n : Nat) : Bool :=
  decide (n = 0xB2 ∨ n = 0xB3 ∨ n = 0x2074 ∨ n = 0x2075 ∨ n = 0x2076 ∨
    n = 0x2077 ∨ n = 0x2078 ∨ n = 0x2079 ∨ n = 0x2070 ∨ n = 0x207B ∨
    n = 0x207A ∨ n = 0x207C ∨ n = 0x207D ∨ n = 0x207E ∨ n = 0x207F ∨
    n = 0x2071 ∨ n = 0x2080 ∨ n = 0x2081 ∨ n = 0x2082 ∨ n = 0x2083 ∨
    n = 0x2084 ∨ n = 0x2085 ∨ n = 0x2086 ∨ n = 0x2087 ∨ n = 0x2088 ∨
    n = 0x2089 ∨ n = 0x208A ∨ n = 0x208B ∨ n = 0x208C ∨ n = 0x208D ∨
    n = 0x208E)

/-- Arrow ranges added to `allowed_symbols`. -/
def arrowSyms (n : Nat) : Bool :=
  decide ((0x2190 ≤ n ∧ n ≤ 0x21FF) ∨ (0x2900 ≤ n ∧ n ≤ 0x297F) ∨
    (0x2B00 ≤ n ∧ n ≤ 0x2B7F))

/-- The explicit math-symbol list added to `allowed_symbols`. -/
def mathExtraSyms (n : Nat) : Bool :=
  decide (n = 0x2208 ∨ n = 0x2209 ∨ n = 0x220A ∨ n = 0x220B ∨ n = 0x220C ∨
    n = 0x2200 ∨ n = 0x2201 ∨ n = 0x2202 ∨ n = 0x2203 ∨ n = 0x2204 ∨
    n = 0x2205 ∨ n = 0x2206 ∨ n = 0x2207 ∨ n = 0xBD ∨ n = 0x2153 ∨
    n = 0x2154 ∨ n = 0xBC ∨ n = 0xBE ∨ n = 0x215B ∨ n = 0x215C ∨
    n = 0x215D ∨ n = 0x215E ∨ n = 0x2151 ∨ n = 0x2152 ∨ n = 0x2155 ∨
    n = 0x2248 ∨ n = 0x2260 ∨ n = 0x2264 ∨ n = 0x2265 ∨ n = 0xB1 ∨
    n = 0xD7 ∨ n = 0xF7 ∨ n = 0x221E ∨ n = 0x221A ∨ n = 0x2211 ∨
    n = 0x220F ∨ n = 0x222B ∨ n = 0x2261)

/-- Membership in the `allowed_symbols` set, by code point: the union of all
groups inserted into the set by the source. -/
def allowedSymbolNat (n : Nat) : Bool :=
  asciiPunctSyms n || whitespaceSyms n || mathRangeSyms n ||
  latinDiacriticSyms n || generalPunctSyms n || hyphenSyms n ||
  emojiRangeSyms n || zeroWidthSyms n || trademarkSyms n || currencySyms n ||
  superSubSyms n || arrowSyms n || mathExtraSyms n

/-- Membership of a character in the `allowed_symbols` set. -/
def allowedSymbol (c : Char) : Bool := allowedSymbolNat c.toNat

/-- The class a single character receives in the classification loop of
`is_mainly_thai`, with tests in source order.  `cat c` models whether
`unicodedata.category(chr(c))` starts with one of P, S, M, Z, C. -/
inductive CharClass where
  | thai
  | neutral
  | english
  | other
deriving DecidableEq

/-- Classification of one character, mirroring the branch order of the loop
body in `is_mainly_thai` (Thai, digit, allowed symbol, English, fallback
category, beyond-BMP, otherwise foreign). -/
def classifyChar (cat : Char → Bool) (c : Char) : CharClass :=
  if isThaiChar c then CharClass.thai
  else if isDigitChar c then CharClass.neutral
  else if allowedSymbol c then CharClass.neutral
  else if isEnglishChar c then CharClass.english
  else if cat c then CharClass.neutral
  else if 0x10000 < c.toNat then CharClass.neutral
  else CharClass.other

/-- State of the classification loop of `is_mainly_thai`. -/
structure ScanState where
  thaiCount : Nat
  englishCount : Nat
  otherChars : List Char

/-- One iteration of the classification loop of `is_mainly_thai`
(code_switching_adapter.py lines 143-181), with the branch tests in source
order; `other_chars` is a set, modelled by insert-if-absent. -/
def classifyStep (cat : Char → Bool) (st : ScanState) (c : Char) : ScanState :=
  if isThaiChar c then { st with thaiCount := st.thaiCount + 1 }
  else if isDigitChar c then st
  else if allowedSymbol c then st
  else if isEnglishChar c then { st with englishCount := st.englishCount + 1 }
  else if cat c then st
  else if 0x10000 < c.toNat then st
  else if c ∈ st.otherChars then st
  else { st with otherChars := st.otherChars ++ [c] }

/-- Embedding of `is_mainly_thai` (code_switching_adapter.py lines 21-194):
drop everything through the first `</think>`, scan the remainder with
`classifyStep`, then fail on any foreign character, fail when English letters
outnumber Thai letters, and succeed otherwise. -/
def is_mainly_thai (cat : Char → Bool) (response : List Char) : Bool :=
  let t := stripToAfterThink response
  let st := t.foldl (classifyStep cat) ⟨0, 0, []⟩
  if st.otherChars ≠ [] then false
  else if st.englishCount > st.thaiCount then false
  else true

/-- Number of characters of `t` receiving class `k`. -/
def countClass (cat : Char → Bool) (k : CharClass) (t : List Char) : Nat :=
  t.countP (fun c => decide (classifyChar cat c = k))

/-! ### Markdown code-block extraction -/

/-- The part of the list strictly after its last newline, or `none` when it
contains no newline. -/
def lastNewlineSplit : List Char → Option (List Char)
  | [] => none
  | c :: rest =>
    match lastNewlineSplit rest with
    | some t => some t
    | none => if c = '\n' then some rest else none

/-- Attempts to match the regex `(three backticks)tag\s*\n(.*?)(three
backticks)` (DOTALL) at the very start of `s`.  Returns the lazy capture and
the remainder after the closing fence.  The greedy `\s*` followed by `\n`
means the capture begins after the last newline of the whitespace run
following the opening fence, and the lazy `.*?` ends it at the earliest
closing fence. -/
def fencedAt (tag : List Char) (s : List Char) : Option (List Char × List Char) :=
  if (fence ++ tag).isPrefixOf s then
    let afterOpen := s.drop (fence ++ tag).length
    let ws := afterOpen.takeWhile isPySpace
    let afterWs := afterOpen.dropWhile isPySpace
    match lastNewlineSplit ws with
    | some wsTail => splitAtFirst fence (wsTail ++ afterWs)
    | none => none
  else none

/-- Models `re.findall` for the fenced-block pattern: scan left to right; on a
match record the capture and resume after the closing fence, otherwise advance
one position.  Fuel-driven (one unit per scan position); fuel equal to the
text length always suffices. -/
def findFencedFuel (tag : List Char) : Nat → List Char → List (List Char)
  | 0, _ => []
  | _ + 1, [] => []
  | fuel + 1, c :: rest =>
    match fencedAt tag (c :: rest) with
    | some (cap, rem) => cap :: findFencedFuel tag fuel rem
    | none => findFencedFuel tag fuel rest

/-- All captures of the fenced-block pattern with the given language tag. -/
def findFenced (tag s : List Char) : List (List Char) :=
  findFencedFuel tag s.length s

/-- The collection loop over `re.findall` matches: keep the stripped capture
when it is non-blank (utils.py lines 57-60 and 73-76). -/
def collectFenced (tag s : List Char) : List (List Char) :=
  (findFenced tag s).filterMap
    (fun m => if pyStrip m = [] then none else some (pyStrip m))

/-- The case-insensitive second collection loop of `extract_code_block`
(utils.py lines 65-68): append each non-blank stripped capture that is not
already present, checking against the list as it grows. -/
def addNewBlocks (acc : List (List Char)) : List (List Char) → List (List Char)
  | [] => acc
  | m :: ms =>
    if pyStrip m ≠ [] ∧ pyStrip m ∉ acc then addNewBlocks (acc ++ [pyStrip m]) ms
    else addNewBlocks acc ms

/-- ASCII lowercasing, modelling Python's `str.lower()` on the ASCII language
tags used by the callers. -/
def asciiLower (s : List Char) : List Char :=
  s.map (fun c =>
    if 0x41 ≤ c.toNat ∧ c.toNat ≤ 0x5A then Char.ofNat (c.toNat + 0x20) else c)

/-- Python's `max(blocks, key=len)`: the first element of maximal length. -/
def maxByLen (b : List Char) (bs : List (List Char)) : List Char :=
  bs.foldl (fun best x => if best.length < x.length then x else best) b

/-- Embedding of `extract_code_block` (utils.py lines 34-84): empty text is
returned as is; otherwise thinking blocks are stripped, language-tagged fenced
blocks are collected (plus a deduplicated case-insensitive variant when the
tag is not already lowercase), untagged fenced blocks are collected only if no
tagged block was found, and the longest collected block is returned, or the
stripped text when nothing was collected. -/
def extract_code_block (text : List Char) (language : List Char) : List Char :=
  if text = [] then text
  else
    let t := strip_thinking_blocks text
    let b1 := collectFenced language t
    let b2 :=
      if asciiLower language ≠ language then
        addNewBlocks b1 (findFenced (asciiLower language) t)
      else b1
    let blocks := if b2 = [] then collectFenced [] t else b2
    match blocks with
    | [] => t
    | b :: bs => maxByLen b bs

/-! ### extract_code_generation -/

/-- Python's `str.split(newline)`. -/
def splitOnNl : List Char → List (List Char)
  | [] => [[]]
  | c :: rest =>
    match splitOnNl rest with
    | [] => [[]]
    | l :: ls => if c = '\n' then [] :: l :: ls else (c :: l) :: ls

/-- Python's `(newline).join(lines)`. -/
def joinNl : List (List Char) → List Char
  | [] => []
  | [l] => l
  | l :: ls => l ++ '\n' :: joinNl ls

/-- Indices of the lines containing a fence marker (`indexlines` in
extract_utils.py line 28). -/
def fenceLineIdxs (lines : List (List Char)) : List Nat :=
  ((lines.enum).filter (fun p => containsSub fence p.2)).map (fun p => p.1)

/-- The pairing loop of `extract_code_generation` (extract_utils.py lines
39-56): pair up consecutive fence-line indices, join the lines strictly
between each pair, and keep the joined block when it is non-blank. -/
def collectChatBlocks (lines : List (List Char)) : List Nat → List (List Char)
  | [] => []
  | [_] => []
  | i :: j :: rest =>
    if containsSub fence (lines.getD i []) then
      (if pyStrip (joinNl ((lines.take j).drop (i + 1))) = [] then []
       else [joinNl ((lines.take j).drop (i + 1))]) ++ collectChatBlocks lines rest
    else collectChatBlocks lines (j :: rest)

/-- Embedding of `extract_code_generation` (extract_utils.py lines 17-64).
A raised `ValueError` is modelled as `Except.error`. -/
def extract_code_generation (model_output : List Char) (model_type : List Char) :
    Except (List Char) (List Char) :=
  let t := strip_thinking_blocks model_output
  let outputlines := splitOnNl t
  if model_type = "base".toList then Except.ok (pyStrip t)
  else if model_type = "chat".toList then
    let indexlines := fenceLineIdxs outputlines
    if indexlines.length < 2 then Except.ok []
    else
      match collectChatBlocks outputlines indexlines with
      | [] =>
        Except.ok (joinNl
          ((outputlines.take (indexlines.getD 1 0)).drop (indexlines.getD 0 0 + 1)))
      | b :: bs => Except.ok (maxByLen b bs)
  else Except.error ("Invalid mode type: ".toList ++ model_type)

/-- Whether an `Except` value is an error (a raised exception). -/
def isError : Except (List Char) (List Char) → Bool
  | Except.error _ => true
  | Except.ok _ => false

/-!
### Concrete behaviour checks

Evaluations of the embedding on the concrete inputs listed as testable
properties in the specification, plus the edge cases used later.  The
category parameter `fun _ => false` matches the real general categories of
the letters occurring in these inputs (letters are category L, which does
not start with P, S, M, Z or C).
-/

example : is_mainly_thai (fun _ => false) "".toList = true := by decide
example : is_mainly_thai (fun _ => false) "สวัสดีครับ วันนี้อากาศดีมาก".toList = true := by decide
example : is_mainly_thai (fun _ => false) "Hello, I want to invest in SSF and RMF funds. สวัสดี".toList = false := by decide
example : is_mainly_thai (fun _ => false) "สวัสดีครับ 😊 วันนี้อากาศดีมาก 🌞".toList = true := by decide
example : is_mainly_thai (fun _ => false) "สวัสดีЖครับ".toList = false := by decide
example : is_mainly_thai (fun _ => false) "reasoning in English only</think>คำตอบภาษาไทย".toList = true := by decide
example : stripToAfterThink "abc</think>ไทย".toList = "ไทย".toList := by decide
example : stripToAfterThink "</thinking>คำตอบ".toList = "</thinking>คำตอบ".toList := by decide
example : strip_thinking_blocks "<think>abc</think> hello ".toList = "hello".toList := by decide
example : strip_thinking_blocks "<thinking>abc</thinking>x<think>y</think>z".toList = "xz".toList := by decide
example : strip_thinking_blocks "<thi<think>x</think>nk>y</think>".toList = "<think>y</think>".toList := by decide
example : strip_thinking_blocks (strip_thinking_blocks "<thi<think>x</think>nk>y</think>".toList) = [] := by decide
example : extract_code_block "pre\n```python\nprint(1)\n```\npost".toList "python".toList = "print(1)".toList := by decide
example : extract_code_block "x\n```\na\n```\ny\n```\nbb\ncc\n```\nz".toList "python".toList = "bb\ncc".toList := by decide
example : extract_code_block "```python\n ```".toList "python".toList = "```python\n ```".toList := by decide
example : extract_code_block "```Python\nfoo()\n```".toList "Python".toList = "foo()".toList := by decide
example : extract_code_block "no code here".toList "python".toList = "no code here".toList := by decide
example : extract_code_generation "hello ``` once".toList "chat".toList = Except.ok [] := rfl
example : extract_code_generation "a\n```\nxx\n```\nb".toList "chat".toList = Except.ok "xx".toList := rfl
example : extract_code_generation "text".toList "base".toList = Except.ok "text".toList := rfl
example : isError (extract_code_generation "text".toList "bad".toList) = true := by decide
example : extract_code_generation "```\nshort\n```\nmid\n```\nmuch longer block\nhere\n```".toList "chat".toList = Except.ok "much longer block\nhere".toList := rfl

/-! ### Basic lemmas about prefixes and substring search -/

theorem isPrefixOf_false_of_not_prefix {l₁ l₂ : List Char} (h : ¬ l₁ <+: l₂) :
    l₁.isPrefixOf l₂ = false := by
  cases hb : l₁.isPrefixOf l₂
  · rfl
  · exact absurd (List.isPrefixOf_iff_prefix.mp hb) h

theorem isPrefixOf_append_self (l t : List Char) : l.isPrefixOf (l ++ t) = true :=
  List.isPrefixOf_iff_prefix.mpr (List.prefix_append l t)

theorem containsSub_eq_true_iff (pat l : List Char) :
    containsSub pat l = true ↔ ∃ t, t <:+ l ∧ pat <+: t := by
  induction l with
  | nil =>
    simp only [containsSub, List.isPrefixOf_iff_prefix]
    constructor
    · intro h; exact ⟨[], List.suffix_refl [], h⟩
    · rintro ⟨t, ht, hp⟩
      rw [List.suffix_nil.mp ht] at hp; exact hp
  | cons c rest ih =>
    simp only [containsSub, Bool.or_eq_true, List.isPrefixOf_iff_prefix, ih]
    constructor
    · rintro (h | ⟨t, ht, hp⟩)
      · exact ⟨c :: rest, List.suffix_refl _, h⟩
      · exact ⟨t, ht.trans (List.suffix_cons c rest), hp⟩
    · rintro ⟨t, ht, hp⟩
      rcases List.suffix_cons_iff.mp ht with h | h
      · subst h; exact Or.inl hp
      · exact Or.inr ⟨t, h, hp⟩

theorem containsSub_false_of_infix {pat l₁ l₂ : List Char} (hinf : l₂ <:+: l₁)
    (h : containsSub pat l₁ = false) : containsSub pat l₂ = false := by
  cases hb : containsSub pat l₂
  · rfl
  · exfalso
    obtain ⟨t, ht, hp⟩ := (containsSub_eq_true_iff pat l₂).mp hb
    obtain ⟨a, b, hab⟩ := hinf
    obtain ⟨u, hu⟩ := ht
    have htl : (t ++ b) <:+ l₁ := ⟨a ++ u, by rw [← hab, ← hu]; simp [List.append_assoc]⟩
    have : containsSub pat l₁ = true :=
      (containsSub_eq_true_iff pat l₁).mpr ⟨t ++ b, htl, hp.trans (List.prefix_append t b)⟩
    rw [this] at h; cases h

theorem containsSub_false_of_prefix {pat₁ pat₂ l : List Char} (hp : pat₁ <+: pat₂)
    (h : containsSub pat₁ l = false) : containsSub pat₂ l = false := by
  cases hb : containsSub pat₂ l
  · rfl
  · exfalso
    obtain ⟨t, ht, hpre⟩ := (containsSub_eq_true_iff pat₂ l).mp hb
    have : containsSub pat₁ l = true :=
      (containsSub_eq_true_iff pat₁ l).mpr ⟨t, ht, hp.trans hpre⟩
    rw [this] at h; cases h

theorem containsSub_cons_false {pat : List Char} {c : Char} {rest : List Char}
    (h : containsSub pat (c :: rest) = false) :
    pat.isPrefixOf (c :: rest) = false ∧ containsSub pat rest = false := by
  rw [containsSub, Bool.or_eq_false_iff] at h
  exact h

theorem findDropList_eq_none {pat l : List Char} (h : containsSub pat l = false) :
    findDropList pat l = none := by
  induction l with
  | nil =>
    rw [containsSub] at h
    simp [findDropList, h]
  | cons c rest ih =>
    obtain ⟨h1, h2⟩ := containsSub_cons_false h
    simp [findDropList, h1, ih h2]

/-! ### Lemmas about whitespace trimming -/

theorem dropWhile_head_false (p : Char → Bool) :
    ∀ (l : List Char) (c : Char) (r : List Char), l.dropWhile p = c :: r → p c = false := by
  intro l
  induction l with
  | nil => intro c r h; cases h
  | cons a l ih =>
    intro c r h
    rw [List.dropWhile_cons] at h
    by_cases ha : p a = true
    · rw [if_pos ha] at h; exact ih c r h
    · rw [if_neg ha] at h
      cases h
      exact Bool.eq_false_iff.mpr ha

theorem dropWhile_idem (p : Char → Bool) (l : List Char) :
    (l.dropWhile p).dropWhile p = l.dropWhile p := by
  cases h : l.dropWhile p with
  | nil => rfl
  | cons c r =>
    have hc := dropWhile_head_false p l c r h
    rw [List.dropWhile_cons, hc]
    simp

theorem ltrim_suffix (l : List Char) : ltrim l <:+ l := List.dropWhile_suffix isPySpace

theorem rtrim_leading (l : List Char) : rtrim l <+: l := by
  have h : (l.reverse.dropWhile isPySpace) <:+ l.reverse := List.dropWhile_suffix isPySpace
  have h2 := List.reverse_prefix.mpr h
  rwa [List.reverse_reverse] at h2

theorem pyStrip_within (l : List Char) : pyStrip l <:+: l :=
  ((rtrim_leading (ltrim l)).isInfix).trans ((ltrim_suffix l).isInfix)

theorem ltrim_eq_self_of_head (l : List Char)
    (h : ∀ c r, l = c :: r → isPySpace c = false) : ltrim l = l := by
  cases l with
  | nil => rfl
  | cons c r =>
    unfold ltrim
    rw [List.dropWhile_cons, h c r rfl]
    simp

theorem rtrim_idem (l : List Char) : rtrim (rtrim l) = rtrim l := by
  unfold rtrim
  rw [List.reverse_reverse, dropWhile_idem]

theorem ltrim_rtrim_ltrim (l : List Char) : ltrim (rtrim (ltrim l)) = rtrim (ltrim l) := by
  apply ltrim_eq_self_of_head
  intro c r h
  obtain ⟨t, ht⟩ := rtrim_leading (ltrim l)
  rw [h] at ht
  apply dropWhile_head_false isPySpace l c (r ++ t)
  have ht2 : c :: (r ++ t) = ltrim l := by simpa using ht
  exact ht2.symm

theorem pyStrip_idem (l : List Char) : pyStrip (pyStrip l) = pyStrip l := by
  unfold pyStrip
  rw [ltrim_rtrim_ltrim, rtrim_idem]

/-! ### Lemmas about removal of thinking blocks -/

theorem removeBlocksFuel_id {st : List Char} (en : List Char) {l : List Char}
    (h : containsSub st l = false) : ∀ fuel, removeBlocksFuel st en fuel l = l := by
  induction l with
  | nil => intro fuel; cases fuel <;> rfl
  | cons c rest ih =>
    intro fuel
    obtain ⟨h1, h2⟩ := containsSub_cons_false h
    cases fuel with
    | zero => rfl
    | succ n =>
      rw [removeBlocksFuel, if_neg (by rw [h1]; exact Bool.false_ne_true), ih h2 n]

theorem strip_thinking_blocks_eq_pyStrip {t : List Char}
    (h : containsSub ("<think".toList) t = false) (ht : t ≠ []) :
    strip_thinking_blocks t = pyStrip t := by
  have h7 : containsSub ("<think>".toList) t = false :=
    containsSub_false_of_prefix ⟨['>'], rfl⟩ h
  have h8 : containsSub ("<thinking>".toList) t = false :=
    containsSub_false_of_prefix ⟨"ing>".toList, rfl⟩ h
  unfold strip_thinking_blocks removeBlocks
  rw [if_neg ht, removeBlocksFuel_id _ h7, removeBlocksFuel_id _ h8]

theorem strip_thinking_blocks_nil : strip_thinking_blocks [] = [] := rfl

theorem containsSub_pyStrip_false {pat l : List Char}
    (h : containsSub pat l = false) : containsSub pat (pyStrip l) = false :=
  containsSub_false_of_infix (pyStrip_within l) h

/-! ### Boundary behaviour of the anchored think-tag preprocessing -/

theorem findDropList_boundary (p₀ : Char) (pt pre post : List Char)
    (hpre : ∀ c ∈ pre, c ≠ p₀) :
    findDropList (p₀ :: pt) (pre ++ (p₀ :: pt) ++ post) = some post := by
  induction pre with
  | nil =>
    have hgoal : ([] : List Char) ++ (p₀ :: pt) ++ post = p₀ :: (pt ++ post) := by simp
    rw [hgoal, findDropList]
    have hp : (p₀ :: pt).isPrefixOf (p₀ :: (pt ++ post)) = true := by
      have hres := isPrefixOf_append_self (p₀ :: pt) post
      rw [List.cons_append] at hres
      exact hres
    rw [if_pos hp]
    have hd : List.drop (p₀ :: pt).length (p₀ :: (pt ++ post)) = post := by
      simp only [List.length_cons, List.drop_succ_cons]
      exact List.drop_left pt post
    rw [hd]
  | cons c pre ih =>
    have hc : c ≠ p₀ := hpre c (List.mem_cons_self c pre)
    simp only [List.cons_append, findDropList]
    rw [if_neg]
    · exact ih (fun x hx => hpre x (List.mem_cons_of_mem c hx))
    · intro hb
      have := List.isPrefixOf_iff_prefix.mp hb
      exact hc (List.cons_prefix_cons.mp this).1.symm

theorem stripToAfterThink_of_no_close {s : List Char}
    (h : containsSub ("</think>".toList) s = false) : stripToAfterThink s = s := by
  unfold stripToAfterThink
  rw [findDropList_eq_none h]

/-! ### The classification loop of is_mainly_thai -/

theorem classifyStep_char (cat : Char → Bool) (st : ScanState) (c : Char) :
    classifyStep cat st c =
      match classifyChar cat c with
      | CharClass.thai => { st with thaiCount := st.thaiCount + 1 }
      | CharClass.english => { st with englishCount := st.englishCount + 1 }
      | CharClass.neutral => st
      | CharClass.other =>
          if c ∈ st.otherChars then st
          else { st with otherChars := st.otherChars ++ [c] } := by
  unfold classifyStep classifyChar
  split_ifs <;> rfl

theorem countClass_nil (cat : Char → Bool) (k : CharClass) : countClass cat k [] = 0 := rfl

theorem countClass_cons (cat : Char → Bool) (k : CharClass) (c : Char) (t : List Char) :
    countClass cat k (c :: t) =
      countClass cat k t + if classifyChar cat c = k then 1 else 0 := by
  unfold countClass
  rw [List.countP_cons]
  by_cases h : classifyChar cat c = k <;> simp [h]

theorem foldl_thaiCount (cat : Char → Bool) :
    ∀ (t : List Char) (st : ScanState),
      (t.foldl (classifyStep cat) st).thaiCount =
        st.thaiCount + countClass cat CharClass.thai t := by
  intro t
  induction t with
  | nil => intro st; simp [countClass_nil]
  | cons c rest ih =>
    intro st
    rw [List.foldl_cons, ih, classifyStep_char, countClass_cons]
    rcases h : classifyChar cat c with _ | _ | _ | _ <;> simp [h]
    · omega
    · split <;> simp

theorem foldl_englishCount (cat : Char → Bool) :
    ∀ (t : List Char) (st : ScanState),
      (t.foldl (classifyStep cat) st).englishCount =
        st.englishCount + countClass cat CharClass.english t := by
  intro t
  induction t with
  | nil => intro st; simp [countClass_nil]
  | cons c rest ih =>
    intro st
    rw [List.foldl_cons, ih, classifyStep_char, countClass_cons]
    rcases h : classifyChar cat c with _ | _ | _ | _ <;> simp [h]
    · omega
    · split <;> simp

theorem step_otherChars_ne (cat : Char → Bool) (st : ScanState) (c : Char)
    (h : st.otherChars ≠ []) : (classifyStep cat st c).otherChars ≠ [] := by
  rw [classifyStep_char]
  rcases classifyChar cat c <;> simp [h]
  split <;> simp [h]

theorem foldl_otherChars_ne (cat : Char → Bool) :
    ∀ (t : List Char) (st : ScanState), st.otherChars ≠ [] →
      (t.foldl (classifyStep cat) st).otherChars ≠ [] := by
  intro t
  induction t with
  | nil => intro st h; exact h
  | cons c rest ih =>
    intro st h
    rw [List.foldl_cons]
    exact ih _ (step_otherChars_ne cat st c h)

theorem foldl_otherChars_nil_iff (cat : Char → Bool) :
    ∀ (t : List Char) (st : ScanState),
      ((t.foldl (classifyStep cat) st).otherChars = []) ↔
        (st.otherChars = [] ∧ countClass cat CharClass.other t = 0) := by
  intro t
  induction t with
  | nil => intro st; simp [countClass_nil]
  | cons c rest ih =>
    intro st
    rw [List.foldl_cons, classifyStep_char, countClass_cons]
    rcases h : classifyChar cat c with _ | _ | _ | _
    case thai => rw [ih]; simp [h]
    case neutral => rw [ih]; simp [h]
    case english => rw [ih]; simp [h]
    case other =>
      have hne : (if c ∈ st.otherChars then st
          else { st with otherChars := st.otherChars ++ [c] }).otherChars ≠ [] := by
        split
        · rename_i hmem
          intro hnil
          rw [hnil] at hmem
          cases hmem
        · simp
      constructor
      · intro hfold
        exact absurd hfold (foldl_otherChars_ne cat rest _ hne)
      · rintro ⟨h1, h2⟩
        simp [h] at h2

theorem is_mainly_thai_characterization (cat : Char → Bool) (s : List Char) :
    is_mainly_thai cat s = true ↔
      (countClass cat CharClass.other (stripToAfterThink s) = 0 ∧
       countClass cat CharClass.english (stripToAfterThink s) ≤
         countClass cat CharClass.thai (stripToAfterThink s)) := by
  have hT : (List.foldl (classifyStep cat) ⟨0, 0, []⟩ (stripToAfterThink s)).thaiCount =
      countClass cat CharClass.thai (stripToAfterThink s) := by
    rw [foldl_thaiCount]
    exact Nat.zero_add _
  have hE : (List.foldl (classifyStep cat) ⟨0, 0, []⟩ (stripToAfterThink s)).englishCount =
      countClass cat CharClass.english (stripToAfterThink s) := by
    rw [foldl_englishCount]
    exact Nat.zero_add _
  have hO : (List.foldl (classifyStep cat) ⟨0, 0, []⟩ (stripToAfterThink s)).otherChars = [] ↔
      countClass cat CharClass.other (stripToAfterThink s) = 0 := by
    rw [foldl_otherChars_nil_iff]
    exact and_iff_right rfl
  have hdef : is_mainly_thai cat s =
      (if (List.foldl (classifyStep cat) ⟨0, 0, []⟩ (stripToAfterThink s)).otherChars ≠ [] then
        false
       else if (List.foldl (classifyStep cat) ⟨0, 0, []⟩ (stripToAfterThink s)).englishCount >
           (List.foldl (classifyStep cat) ⟨0, 0, []⟩ (stripToAfterThink s)).thaiCount then false
       else true) := rfl
  rw [hdef]
  split_ifs with h1 h2
  · simp only [Bool.false_eq_true, false_iff]
    rintro ⟨hc0, hle⟩
    exact h1 (hO.mpr hc0)
  · simp only [Bool.false_eq_true, false_iff]
    rintro ⟨hc0, hle⟩
    rw [hT, hE] at h2
    omega
  · simp only [true_iff]
    push_neg at h1
    rw [hT, hE] at h2
    exact ⟨hO.mp h1, Nat.not_lt.mp h2⟩

/-! ### Claim theorems for the classifier and the reasoning stripper -/

/-- C1: for every input, `is_mainly_thai` returns true if and only if, over the
text remaining after the reasoning-delimiter preprocessing, no character is
classified as foreign and the Latin-letter count is at most the Thai-letter
count (neutral characters excluded from both counts); in particular the empty
input yields true. -/
theorem is_mainly_thai_true_iff_no_other_and_english_le_thai
    (cat : Char → Bool) (s : List Char) :
    (is_mainly_thai cat s = true ↔
      (countClass cat CharClass.other (stripToAfterThink s) = 0 ∧
       countClass cat CharClass.english (stripToAfterThink s) ≤
         countClass cat CharClass.thai (stripToAfterThink s))) ∧
    is_mainly_thai cat [] = true :=
  ⟨is_mainly_thai_characterization cat s, rfl⟩

/-- C2: a single character of the post-preprocessing text that is not Thai,
not a Latin letter, not a digit, not an allowed symbol, whose general category
does not start with P, S, M, Z or C, and whose code point does not exceed
U+10000, forces `is_mainly_thai` to return false. -/
theorem is_mainly_thai_false_of_foreign_char (cat : Char → Bool) (s : List Char)
    (c : Char) (hmem : c ∈ stripToAfterThink s)
    (hthai : isThaiChar c = false) (heng : isEnglishChar c = false)
    (hdig : isDigitChar c = false) (hsym : allowedSymbol c = false)
    (hcat : cat c = false) (hbmp : c.toNat ≤ 0x10000) :
    is_mainly_thai cat s = false := by
  have hcls : classifyChar cat c = CharClass.other := by
    simp [classifyChar, hthai, heng, hdig, hsym, hcat, Nat.not_lt.mpr hbmp]
  have hcount : 0 < countClass cat CharClass.other (stripToAfterThink s) := by
    unfold countClass
    rw [List.countP_pos_iff]
    exact ⟨c, hmem, by simp [hcls]⟩
  cases hb : is_mainly_thai cat s
  · rfl
  · exfalso
    obtain ⟨h0, _⟩ := (is_mainly_thai_characterization cat s).mp hb
    omega

/-- Witness for C2: a Cyrillic character amid Thai text (with the faithful
category value false, since Cyrillic letters are category Lu) forces a false
classification. -/
theorem is_mainly_thai_false_of_foreign_char_witness :
    ('Ж' ∈ stripToAfterThink ("สวัสดีЖ".toList)) ∧
    is_mainly_thai (fun _ => false) ("สวัสดีЖ".toList) = false :=
  ⟨by decide,
   is_mainly_thai_false_of_foreign_char (fun _ => false) ("สวัสดีЖ".toList) 'Ж'
    (by decide) (by decide) (by decide) (by decide) (by decide) (by decide) (by decide)⟩

/-- C9: the four explicit classification sets (Thai range, Latin-letter
ranges, digit range, allowed-symbol set) are pairwise disjoint: no code point
belongs to more than one of them. -/
theorem classification_sets_pairwise_disjoint (c : Char) :
    (¬(isThaiChar c = true ∧ isEnglishChar c = true)) ∧
    (¬(isThaiChar c = true ∧ isDigitChar c = true)) ∧
    (¬(isThaiChar c = true ∧ allowedSymbol c = true)) ∧
    (¬(isEnglishChar c = true ∧ isDigitChar c = true)) ∧
    (¬(isEnglishChar c = true ∧ allowedSymbol c = true)) ∧
    (¬(isDigitChar c = true ∧ allowedSymbol c = true)) := by
  refine ⟨?_, ?_, ?_, ?_, ?_, ?_⟩ <;> rintro ⟨ha, hb⟩ <;>
    simp only [isThaiChar, isEnglishChar, isDigitChar, allowedSymbol, allowedSymbolNat,
      asciiPunctSyms, whitespaceSyms, mathRangeSyms, latinDiacriticSyms, generalPunctSyms,
      hyphenSyms, emojiRangeSyms, zeroWidthSyms, trademarkSyms, currencySyms, superSubSyms,
      arrowSyms, mathExtraSyms, Bool.or_eq_true, decide_eq_true_eq] at ha hb <;>
    omega

/-- C3 counterexample: `strip_thinking_blocks` is not idempotent.  Removing
the inner well-formed block from this input splices the surrounding text into
a new think-tag pair, which a second application then removes. -/
theorem strip_thinking_blocks_not_idempotent :
    strip_thinking_blocks
        (strip_thinking_blocks ("<thi<think>x</think>nk>y</think>".toList)) ≠
      strip_thinking_blocks ("<thi<think>x</think>nk>y</think>".toList) := by
  decide

/-- C3 amended: `strip_thinking_blocks` is idempotent on every input that
contains no think-tag fragment, i.e. no occurrence of the substring that both
accepted opening tags start with. -/
theorem strip_thinking_blocks_idempotent_of_no_think_tag (t : List Char)
    (h : containsSub ("<think".toList) t = false) :
    strip_thinking_blocks (strip_thinking_blocks t) = strip_thinking_blocks t := by
  by_cases ht : t = []
  · subst ht
    rfl
  · rw [strip_thinking_blocks_eq_pyStrip h ht]
    by_cases h2 : pyStrip t = []
    · rw [h2]
      rfl
    · rw [strip_thinking_blocks_eq_pyStrip (containsSub_pyStrip_false h) h2]
      exact pyStrip_idem t

/-- Witness for the amended C3 on a concrete tag-free input. -/
theorem strip_thinking_blocks_idempotent_of_no_think_tag_witness :
    containsSub ("<think".toList) ("  คำตอบ ab  ".toList) = false ∧
    strip_thinking_blocks (strip_thinking_blocks ("  คำตอบ ab  ".toList)) =
      strip_thinking_blocks ("  คำตอบ ab  ".toList) :=
  ⟨by decide, strip_thinking_blocks_idempotent_of_no_think_tag _ (by decide)⟩

/-- C10: the preprocessing of `is_mainly_thai` discards everything up to and
including the first `</think>` even with no opening tag present; it is the
identity when `</think>` is absent; and the alternative spelling
`</thinking>` does not contain the trigger substring, so on its own it never
causes a discard. -/
theorem stripToAfterThink_spec :
    (∀ pre post : List Char, (∀ c ∈ pre, c ≠ '<') →
      stripToAfterThink (pre ++ "</think>".toList ++ post) = post) ∧
    (∀ s : List Char, containsSub ("</think>".toList) s = false →
      stripToAfterThink s = s) ∧
    containsSub ("</think>".toList) ("</thinking>".toList) = false := by
  refine ⟨?_, ?_, by decide⟩
  · intro pre post hpre
    unfold stripToAfterThink
    rw [show ("</think>".toList) = '<' :: "/think>".toList from rfl,
      findDropList_boundary '<' ("/think>".toList) pre post hpre]
  · intro s h
    exact stripToAfterThink_of_no_close h

/-- Witness for C10: a concrete discard with no opening tag, and a concrete
text containing only the alternative closing tag, left unchanged. -/
theorem stripToAfterThink_spec_witness :
    stripToAfterThink ("abc".toList ++ "</think>".toList ++ "ไทย".toList) = "ไทย".toList ∧
    stripToAfterThink ("</thinking>คำตอบ".toList) = "</thinking>คำตอบ".toList :=
  ⟨stripToAfterThink_spec.1 ("abc".toList) ("ไทย".toList) (by decide),
   stripToAfterThink_spec.2.1 _ (by decide)⟩

/-! ### Claim theorems for extract_code_generation -/

theorem extract_code_generation_chat_ok (s : List Char) :
    ∃ v, extract_code_generation s ("chat".toList) = Except.ok v := by
  have h1 : ("chat".toList = "base".toList) = False := eq_false (by decide)
  have h2 : ("chat".toList = "chat".toList) = True := eq_true rfl
  simp only [extract_code_generation, h1, h2, if_false, if_true]
  split
  · exact ⟨[], rfl⟩
  · split
    · exact ⟨_, rfl⟩
    · exact ⟨_, rfl⟩

/-- C7: `extract_code_generation` signals an error exactly when its mode
argument is neither of the two recognized values; the recognized modes never
raise on any input text. -/
theorem extract_code_generation_error_iff (s m : List Char) :
    isError (extract_code_generation s m) = true ↔
      (m ≠ "base".toList ∧ m ≠ "chat".toList) := by
  by_cases hb : m = "base".toList
  · subst hb
    have hok : extract_code_generation s ("base".toList) =
        Except.ok (pyStrip (strip_thinking_blocks s)) := by
      have h2 : ("base".toList = "base".toList) = True := eq_true rfl
      simp only [extract_code_generation, h2, if_true]
    rw [hok]
    simp [isError]
  · by_cases hc : m = "chat".toList
    · subst hc
      obtain ⟨v, hv⟩ := extract_code_generation_chat_ok s
      rw [hv]
      simp [isError]
    · have herr : extract_code_generation s m =
          Except.error ("Invalid mode type: ".toList ++ m) := by
        simp only [extract_code_generation]
        rw [if_neg hb, if_neg hc]
      rw [herr]
      simp only [isError, true_iff]
      exact ⟨hb, hc⟩

/-- C8: in chat mode, when the post-stripping text has fewer than two lines
containing a fence marker, `extract_code_generation` returns the empty
string. -/
theorem extract_code_generation_chat_few_fences (s : List Char)
    (h : (fenceLineIdxs (splitOnNl (strip_thinking_blocks s))).length < 2) :
    extract_code_generation s ("chat".toList) = Except.ok [] := by
  have h1 : ("chat".toList = "base".toList) = False := eq_false (by decide)
  have h2 : ("chat".toList = "chat".toList) = True := eq_true rfl
  simp only [extract_code_generation, h1, h2, if_false, if_true]
  rw [if_pos h]

/-- Witness for C8 on a text with a single fence line. -/
theorem extract_code_generation_chat_few_fences_witness :
    (fenceLineIdxs (splitOnNl (strip_thinking_blocks ("hello ``` once".toList)))).length < 2 ∧
    extract_code_generation ("hello ``` once".toList) ("chat".toList) = Except.ok [] :=
  ⟨by decide, extract_code_generation_chat_few_fences _ (by decide)⟩

/-! ### Lemmas about block collection and longest-block selection -/

theorem maxByLen_mem (b : List Char) (bs : List (List Char)) : maxByLen b bs ∈ b :: bs := by
  induction bs generalizing b with
  | nil => simp [maxByLen]
  | cons x bs ih =>
    have e : maxByLen b (x :: bs) = maxByLen (if b.length < x.length then x else b) bs := rfl
    rw [e]
    rcases List.mem_cons.mp (ih (if b.length < x.length then x else b)) with h1 | h1
    · rw [h1]
      split
      · exact List.mem_cons_of_mem b (List.mem_cons_self x bs)
      · exact List.mem_cons_self b (x :: bs)
    · exact List.mem_cons_of_mem b (List.mem_cons_of_mem x h1)

theorem maxByLen_le (b : List Char) (bs : List (List Char)) :
    ∀ x ∈ b :: bs, x.length ≤ (maxByLen b bs).length := by
  induction bs generalizing b with
  | nil =>
    intro x hx
    rcases List.mem_cons.mp hx with h | h
    · rw [h]; exact Nat.le_refl _
    · cases h
  | cons y bs ih =>
    intro x hx
    have e : maxByLen b (y :: bs) = maxByLen (if b.length < y.length then y else b) bs := rfl
    rw [e]
    set m := if b.length < y.length then y else b with hm
    have hbm : b.length ≤ m.length := by
      rw [hm]
      split_ifs with hlt
      · exact Nat.le_of_lt hlt
      · exact Nat.le_refl _
    have hym : y.length ≤ m.length := by
      rw [hm]
      split_ifs with hlt
      · exact Nat.le_refl _
      · exact Nat.le_of_not_lt hlt
    rcases List.mem_cons.mp hx with h | h
    · rw [h]; exact hbm.trans (ih m m (List.mem_cons_self m bs))
    · rcases List.mem_cons.mp h with h2 | h2
      · rw [h2]; exact hym.trans (ih m m (List.mem_cons_self m bs))
      · exact ih m x (List.mem_cons_of_mem m h2)

theorem collectFenced_eq_nil_iff (tag s : List Char) :
    collectFenced tag s = [] ↔ ∀ m ∈ findFenced tag s, pyStrip m = [] := by
  unfold collectFenced
  rw [List.filterMap_eq_nil_iff]
  constructor
  · intro h m hm
    have hv := h m hm
    by_cases hp : pyStrip m = []
    · exact hp
    · rw [if_neg hp] at hv; cases hv
  · intro h m hm
    rw [if_pos (h m hm)]

theorem addNewBlocks_of_all_blank (acc : List (List Char)) (ms : List (List Char))
    (h : ∀ m ∈ ms, pyStrip m = []) : addNewBlocks acc ms = acc := by
  induction ms generalizing acc with
  | nil => rfl
  | cons m ms ih =>
    rw [addNewBlocks, if_neg]
    · exact ih acc (fun x hx => h x (List.mem_cons_of_mem m hx))
    · rintro ⟨h1, _⟩
      exact h1 (h m (List.mem_cons_self m ms))

/-- C4: when no fenced block tagged with the preferred language is collected
(in either case variant) but untagged fenced blocks exist, `extract_code_block`
falls back to the untagged blocks and returns one of them, of maximal
length. -/
theorem extract_code_block_generic_fallback (text lang g : List Char)
    (gs : List (List Char)) (htext : text ≠ [])
    (h1 : collectFenced lang (strip_thinking_blocks text) = [])
    (h2 : collectFenced (asciiLower lang) (strip_thinking_blocks text) = [])
    (h3 : collectFenced [] (strip_thinking_blocks text) = g :: gs) :
    extract_code_block text lang = maxByLen g gs ∧
    maxByLen g gs ∈ g :: gs ∧
    ∀ x ∈ g :: gs, x.length ≤ (maxByLen g gs).length := by
  refine ⟨?_, maxByLen_mem g gs, maxByLen_le g gs⟩
  simp only [extract_code_block]
  rw [if_neg htext, h1]
  by_cases hlow : asciiLower lang ≠ lang
  · rw [if_pos hlow,
      addNewBlocks_of_all_blank [] _ (fun m hm => (collectFenced_eq_nil_iff _ _).mp h2 m hm),
      if_pos rfl, h3]
  · rw [if_neg hlow, if_pos rfl, h3]

/-- Witness for C4: text with no python-tagged block and two untagged blocks;
the longest untagged block is returned. -/
theorem extract_code_block_generic_fallback_witness :
    extract_code_block ("x\n```\na\n```\ny\n```\nbb\ncc\n```\nz".toList) ("python".toList) =
      maxByLen ("a".toList) ["bb\ncc".toList] ∧
    maxByLen ("a".toList) ["bb\ncc".toList] ∈ ("a".toList) :: ["bb\ncc".toList] ∧
    ∀ x ∈ ("a".toList) :: ["bb\ncc".toList],
      x.length ≤ (maxByLen ("a".toList) ["bb\ncc".toList]).length :=
  extract_code_block_generic_fallback
    ("x\n```\na\n```\ny\n```\nbb\ncc\n```\nz".toList) ("python".toList)
    ("a".toList) ["bb\ncc".toList]
    (by decide) (by decide) (by decide) (by decide)

/-- C6: when nothing is collected for the language tag in either case variant
and exactly two untagged blocks of different lengths are collected,
`extract_code_block` returns the longer of the two. -/
theorem extract_code_block_two_generic_longer (text lang a b : List Char)
    (htext : text ≠ [])
    (h1 : collectFenced lang (strip_thinking_blocks text) = [])
    (h2 : collectFenced (asciiLower lang) (strip_thinking_blocks text) = [])
    (h3 : collectFenced [] (strip_thinking_blocks text) = [a, b])
    (hab : a.length ≠ b.length) :
    (extract_code_block text lang = a ∧ b.length < a.length) ∨
    (extract_code_block text lang = b ∧ a.length < b.length) := by
  have hmax : extract_code_block text lang = (if a.length < b.length then b else a) := by
    simp only [extract_code_block]
    rw [if_neg htext, h1]
    by_cases hlow : asciiLower lang ≠ lang
    · rw [if_pos hlow,
        addNewBlocks_of_all_blank [] _ (fun m hm => (collectFenced_eq_nil_iff _ _).mp h2 m hm),
        if_pos rfl, h3]
      rfl
    · rw [if_neg hlow, if_pos rfl, h3]
      rfl
  rcases Nat.lt_or_ge a.length b.length with hlt | hge
  · right
    rw [hmax, if_pos hlt]
    exact ⟨rfl, hlt⟩
  · left
    have hgt : b.length < a.length := Nat.lt_of_le_of_ne hge (fun he => hab he.symm)
    rw [hmax, if_neg (Nat.not_lt.mpr hge)]
    exact ⟨rfl, hgt⟩

/-- Witness for C6: two untagged blocks where the first is longer. -/
theorem extract_code_block_two_generic_longer_witness :
    (extract_code_block ("t\n```\nlonger one\n```\nmid\n```\nzz\n```\n".toList)
        ("python".toList) = "longer one".toList ∧
      ("zz".toList).length < ("longer one".toList).length) ∨
    (extract_code_block ("t\n```\nlonger one\n```\nmid\n```\nzz\n```\n".toList)
        ("python".toList) = "zz".toList ∧
      ("longer one".toList).length < ("zz".toList).length) :=
  extract_code_block_two_generic_longer
    ("t\n```\nlonger one\n```\nmid\n```\nzz\n```\n".toList) ("python".toList)
    ("longer one".toList) ("zz".toList)
    (by decide) (by decide) (by decide) (by decide) (by decide)

/-! ### Lemmas for the fenced-block scanner -/

theorem splitAtFirst_boundary (p₀ : Char) (pt x y : List Char)
    (hx : ∀ c ∈ x, c ≠ p₀) :
    splitAtFirst (p₀ :: pt) (x ++ ((p₀ :: pt) ++ y)) = some (x, y) := by
  induction x with
  | nil =>
    rw [List.nil_append, List.cons_append, splitAtFirst]
    have hp : (p₀ :: pt).isPrefixOf (p₀ :: (pt ++ y)) = true := by
      have hres := isPrefixOf_append_self (p₀ :: pt) y
      rw [List.cons_append] at hres
      exact hres
    rw [if_pos hp]
    have hd : List.drop (p₀ :: pt).length (p₀ :: (pt ++ y)) = y := by
      simp only [List.length_cons, List.drop_succ_cons]
      exact List.drop_left pt y
    rw [hd]
  | cons c x ih =>
    have hc : c ≠ p₀ := hx c (List.mem_cons_self c x)
    rw [List.cons_append, splitAtFirst]
    rw [if_neg]
    · rw [ih (fun z hz => hx z (List.mem_cons_of_mem c hz))]
    · intro hb
      exact hc (List.cons_prefix_cons.mp (List.isPrefixOf_iff_prefix.mp hb)).1.symm

theorem fencedAt_none_of_head {c : Char} (tag : List Char) (rest : List Char)
    (hc : c ≠ btick) : fencedAt tag (c :: rest) = none := by
  unfold fencedAt
  rw [if_neg]
  intro hb
  have hpre := List.isPrefixOf_iff_prefix.mp hb
  rw [show fence ++ tag = btick :: ([btick, btick] ++ tag) from rfl] at hpre
  exact hc (List.cons_prefix_cons.mp hpre).1.symm

theorem findFencedFuel_nil_of_no_btick (tag : List Char) :
    ∀ (fuel : Nat) (s : List Char), (∀ c ∈ s, c ≠ btick) →
      findFencedFuel tag fuel s = [] := by
  intro fuel
  induction fuel with
  | zero => intro s _; rfl
  | succ n ih =>
    intro s h
    cases s with
    | nil => rfl
    | cons c rest =>
      rw [findFencedFuel, fencedAt_none_of_head tag rest (h c (List.mem_cons_self c rest))]
      exact ih rest (fun z hz => h z (List.mem_cons_of_mem c hz))

theorem findFencedFuel_skip (tag b : List Char) :
    ∀ (a : List Char) (fuel : Nat), (∀ c ∈ a, c ≠ btick) →
      findFencedFuel tag (a.length + fuel) (a ++ b) = findFencedFuel tag fuel b := by
  intro a
  induction a with
  | nil => intro fuel _; rw [List.nil_append, List.length_nil, Nat.zero_add]
  | cons c a ih =>
    intro fuel h
    have hlen : (c :: a).length + fuel = (a.length + fuel) + 1 := by
      simp only [List.length_cons]
      omega
    rw [hlen, List.cons_append, findFencedFuel,
      fencedAt_none_of_head tag (a ++ b) (h c (List.mem_cons_self c a))]
    exact ih fuel (fun z hz => h z (List.mem_cons_of_mem c hz))

theorem takeWhile_append_stop (p : Char → Bool) (z : List Char)
    (hz : ∀ c r, z = c :: r → p c = false) :
    ∀ a : List Char, (a ++ z).takeWhile p = a.takeWhile p := by
  intro a
  induction a with
  | nil =>
    rw [List.nil_append]
    cases z with
    | nil => rfl
    | cons c r => simp [List.takeWhile_cons, hz c r rfl]
  | cons c a ih =>
    by_cases hc : p c = true <;> simp [List.takeWhile_cons, hc, ih]

theorem dropWhile_append_stop (p : Char → Bool) (z : List Char)
    (hz : ∀ c r, z = c :: r → p c = false) :
    ∀ a : List Char, (a ++ z).dropWhile p = a.dropWhile p ++ z := by
  intro a
  induction a with
  | nil =>
    rw [List.nil_append]
    cases z with
    | nil => rfl
    | cons c r => simp [List.dropWhile_cons, hz c r rfl]
  | cons c a ih =>
    by_cases hc : p c = true <;> simp [List.dropWhile_cons, hc, ih]

theorem dropWhile_append_all (p : Char → Bool) (a b : List Char)
    (h : ∀ c ∈ a, p c = true) : (a ++ b).dropWhile p = b.dropWhile p := by
  induction a with
  | nil => rw [List.nil_append]
  | cons c a ih =>
    rw [List.cons_append, List.dropWhile_cons, if_pos (h c (List.mem_cons_self c a))]
    exact ih (fun z hz => h z (List.mem_cons_of_mem c hz))

theorem lastNewlineSplit_cons_nl (u : List Char) :
    lastNewlineSplit ('\n' :: u) = some ((lastNewlineSplit u).getD u) := by
  cases h : lastNewlineSplit u <;> simp [lastNewlineSplit, h]

theorem lastNewlineSplit_suffix : ∀ (u w : List Char),
    lastNewlineSplit u = some w → w <:+ u := by
  intro u
  induction u with
  | nil => intro w h; cases h
  | cons c rest ih =>
    intro w h
    rw [lastNewlineSplit] at h
    cases hr : lastNewlineSplit rest with
    | some t =>
      rw [hr] at h
      injection h with h2
      rw [← h2]
      exact (ih t hr).trans (List.suffix_cons c rest)
    | none =>
      rw [hr] at h
      by_cases hc : c = '\n'
      · rw [if_pos hc] at h
        injection h with h2
        rw [← h2]
        exact List.suffix_cons c rest
      · rw [if_neg hc] at h
        cases h

theorem getD_lastNewlineSplit_suffix (u : List Char) :
    ((lastNewlineSplit u).getD u) <:+ u := by
  cases h : lastNewlineSplit u with
  | none => exact List.suffix_refl u
  | some t => exact lastNewlineSplit_suffix u t h

theorem fencedAt_structured (lang S post : List Char) (hS : ∀ c ∈ S, c ≠ btick) :
    fencedAt lang ((fence ++ lang) ++ ('\n' :: (S ++ (fence ++ post)))) =
      some ((((lastNewlineSplit (S.takeWhile isPySpace)).getD (S.takeWhile isPySpace)) ++
        S.dropWhile isPySpace), post) := by
  have hzfence : ∀ c r, (fence ++ post) = c :: r → isPySpace c = false := by
    intro c r h
    rw [show fence ++ post = btick :: ([btick, btick] ++ post) from rfl] at h
    injection h with h1 _
    rw [← h1]
    decide
  have hcond : (fence ++ lang).isPrefixOf
      ((fence ++ lang) ++ ('\n' :: (S ++ (fence ++ post)))) = true :=
    isPrefixOf_append_self _ _
  simp only [fencedAt]
  rw [if_pos hcond]
  have hdrop : ((fence ++ lang) ++ ('\n' :: (S ++ (fence ++ post)))).drop
      (fence ++ lang).length = '\n' :: (S ++ (fence ++ post)) := List.drop_left _ _
  rw [hdrop]
  have htw : ('\n' :: (S ++ (fence ++ post))).takeWhile isPySpace =
      '\n' :: (S.takeWhile isPySpace) := by
    rw [List.takeWhile_cons, if_pos (by decide : isPySpace '\n' = true),
      takeWhile_append_stop isPySpace (fence ++ post) hzfence S]
  have hdw : ('\n' :: (S ++ (fence ++ post))).dropWhile isPySpace =
      S.dropWhile isPySpace ++ (fence ++ post) := by
    rw [List.dropWhile_cons, if_pos (by decide : isPySpace '\n' = true),
      dropWhile_append_stop isPySpace (fence ++ post) hzfence S]
  rw [htw, hdw, lastNewlineSplit_cons_nl]
  show splitAtFirst fence
      (((lastNewlineSplit (S.takeWhile isPySpace)).getD (S.takeWhile isPySpace)) ++
        (S.dropWhile isPySpace ++ (fence ++ post))) = _
  have hwv : ∀ c ∈ ((lastNewlineSplit (S.takeWhile isPySpace)).getD (S.takeWhile isPySpace)) ++
      S.dropWhile isPySpace, c ≠ btick := by
    intro c hc
    rcases List.mem_append.mp hc with h | h
    · exact hS c ((List.takeWhile_prefix isPySpace).sublist.subset
        ((getD_lastNewlineSplit_suffix (S.takeWhile isPySpace)).sublist.subset h))
    · exact hS c ((List.dropWhile_suffix isPySpace).sublist.subset h)
  have hregroup : ((lastNewlineSplit (S.takeWhile isPySpace)).getD (S.takeWhile isPySpace)) ++
      (S.dropWhile isPySpace ++ (fence ++ post)) =
      (((lastNewlineSplit (S.takeWhile isPySpace)).getD (S.takeWhile isPySpace)) ++
        S.dropWhile isPySpace) ++ ((btick :: [btick, btick]) ++ post) := by
    rw [show (btick :: [btick, btick] : List Char) = fence from rfl]
    simp [List.append_assoc]
  rw [hregroup, show fence = btick :: [btick, btick] from rfl,
    splitAtFirst_boundary btick [btick, btick]
      (((lastNewlineSplit (S.takeWhile isPySpace)).getD (S.takeWhile isPySpace)) ++
        S.dropWhile isPySpace) post hwv]

theorem findFenced_structured (lang pre2 S post2 : List Char)
    (hpre2 : ∀ c ∈ pre2, c ≠ btick) (hS : ∀ c ∈ S, c ≠ btick)
    (hpost2 : ∀ c ∈ post2, c ≠ btick) :
    findFenced lang (pre2 ++ ((fence ++ lang) ++ ('\n' :: (S ++ (fence ++ post2))))) =
      [((lastNewlineSplit (S.takeWhile isPySpace)).getD (S.takeWhile isPySpace)) ++
        S.dropWhile isPySpace] := by
  unfold findFenced
  rw [List.length_append,
    findFencedFuel_skip lang ((fence ++ lang) ++ ('\n' :: (S ++ (fence ++ post2)))) pre2
      ((fence ++ lang) ++ ('\n' :: (S ++ (fence ++ post2)))).length hpre2]
  have hBcons : (fence ++ lang) ++ ('\n' :: (S ++ (fence ++ post2))) =
      btick :: (btick :: (btick :: (lang ++ ('\n' :: (S ++ (fence ++ post2)))))) := rfl
  obtain ⟨n, hn⟩ : ∃ n, ((fence ++ lang) ++ ('\n' :: (S ++ (fence ++ post2)))).length = n + 1 := by
    refine ⟨((fence ++ lang) ++ ('\n' :: (S ++ (fence ++ post2)))).length - 1, ?_⟩
    rw [hBcons]
    simp only [List.length_cons]
    omega
  rw [hn, hBcons, findFencedFuel]
  rw [show (btick :: (btick :: (btick :: (lang ++ ('\n' :: (S ++ (fence ++ post2))))))) =
      ((fence ++ lang) ++ ('\n' :: (S ++ (fence ++ post2)))) from rfl]
  rw [fencedAt_structured lang S post2 hS]
  show (((lastNewlineSplit (S.takeWhile isPySpace)).getD (S.takeWhile isPySpace)) ++
      S.dropWhile isPySpace) :: findFencedFuel lang n post2 = _
  rw [findFencedFuel_nil_of_no_btick lang n post2 hpost2]

theorem pyStrip_wv (S : List Char) :
    pyStrip (((lastNewlineSplit (S.takeWhile isPySpace)).getD (S.takeWhile isPySpace)) ++
      S.dropWhile isPySpace) = pyStrip S := by
  have hwall : ∀ c ∈ ((lastNewlineSplit (S.takeWhile isPySpace)).getD
      (S.takeWhile isPySpace)), isPySpace c = true := by
    intro c hc
    exact List.mem_takeWhile_imp
      ((getD_lastNewlineSplit_suffix (S.takeWhile isPySpace)).sublist.subset hc)
  show rtrim (ltrim _) = rtrim (ltrim S)
  unfold ltrim
  rw [dropWhile_append_all isPySpace _ _ hwall, dropWhile_idem]

theorem collectFenced_structured (lang pre2 S post2 : List Char)
    (hpre2 : ∀ c ∈ pre2, c ≠ btick) (hS : ∀ c ∈ S, c ≠ btick)
    (hpost2 : ∀ c ∈ post2, c ≠ btick) (hne : pyStrip S ≠ []) :
    collectFenced lang (pre2 ++ ((fence ++ lang) ++ ('\n' :: (S ++ (fence ++ post2))))) =
      [pyStrip S] := by
  unfold collectFenced
  rw [findFenced_structured lang pre2 S post2 hpre2 hS hpost2]
  rw [List.filterMap_cons, pyStrip_wv, if_neg hne]
  rfl

theorem rtrim_append_keep (y b : List Char)
    (hy : ∀ c r, y.reverse = c :: r → isPySpace c = false) :
    rtrim (y ++ b) = y ++ rtrim b := by
  unfold rtrim
  rw [List.reverse_append, dropWhile_append_stop isPySpace y.reverse hy b.reverse,
    List.reverse_append, List.reverse_reverse]

/-- C5 counterexample: the round-trip claim fails as stated when the single
tagged block contains only whitespace; the block is then discarded as blank
and the whole text is returned instead of the stripped content. -/
theorem extract_code_block_roundtrip_counterexample :
    extract_code_block ("```python\n ```".toList) ("python".toList) ≠
      pyStrip (" ".toList) := by
  decide

/-- C5 amended: for text built from backtick-free surrounding content plus
exactly one fenced block tagged with the (lowercase) preferred language and
containing a backtick-free string S whose strip is non-blank, with no
think-tag fragment anywhere, `extract_code_block` returns S stripped. -/
theorem extract_code_block_roundtrip (pre lang S post : List Char)
    (hpre : ∀ c ∈ pre, c ≠ btick) (hS : ∀ c ∈ S, c ≠ btick)
    (hpost : ∀ c ∈ post, c ≠ btick)
    (hlow : asciiLower lang = lang)
    (hthink : containsSub ("<think".toList)
      (pre ++ ((fence ++ lang) ++ ('\n' :: (S ++ (fence ++ post))))) = false)
    (hne : pyStrip S ≠ []) :
    extract_code_block (pre ++ ((fence ++ lang) ++ ('\n' :: (S ++ (fence ++ post))))) lang =
      pyStrip S := by
  have hsne : pre ++ ((fence ++ lang) ++ ('\n' :: (S ++ (fence ++ post)))) ≠ [] := by
    intro h
    have hlen := congrArg List.length h
    simp only [List.length_append, List.length_cons, List.length_nil] at hlen
    omega
  have hfhead : ∀ (w : List Char) (c : Char) (r : List Char),
      (fence ++ w) = c :: r → isPySpace c = false := by
    intro w c r h
    rw [show fence ++ w = btick :: ([btick, btick] ++ w) from rfl] at h
    injection h with h1 _
    rw [← h1]
    decide
  -- decompose the whitespace-stripping around the backtick-delimited middle
  have hdecomp : pyStrip (pre ++ ((fence ++ lang) ++ ('\n' :: (S ++ (fence ++ post))))) =
      ltrim pre ++ ((fence ++ lang) ++ ('\n' :: (S ++ (fence ++ rtrim post)))) := by
    show rtrim (ltrim _) = _
    unfold ltrim
    rw [dropWhile_append_stop isPySpace ((fence ++ lang) ++ ('\n' :: (S ++ (fence ++ post))))
      (by
        intro c r h
        rw [show (fence ++ lang) ++ ('\n' :: (S ++ (fence ++ post))) =
          btick :: (([btick, btick] ++ lang) ++ ('\n' :: (S ++ (fence ++ post)))) from rfl] at h
        injection h with h1 _
        rw [← h1]
        decide) pre]
    have hmid : List.dropWhile isPySpace pre ++ ((fence ++ lang) ++ ('\n' :: (S ++ (fence ++ post)))) =
        (List.dropWhile isPySpace pre ++ ((fence ++ lang) ++ ('\n' :: S)) ++ fence) ++ post := by
      simp [List.append_assoc]
    rw [hmid, rtrim_append_keep _ post
      (by
        intro c r h
        rw [List.reverse_append] at h
        rw [show fence.reverse = btick :: [btick, btick] from rfl] at h
        rw [List.cons_append] at h
        injection h with h1 _
        rw [← h1]
        decide)]
    simp [List.append_assoc, ltrim]
  simp only [extract_code_block]
  rw [if_neg hsne, strip_thinking_blocks_eq_pyStrip hthink hsne, hdecomp,
    collectFenced_structured lang (ltrim pre) S (rtrim post)
      (fun c hc => hpre c ((List.dropWhile_suffix isPySpace).sublist.subset hc)) hS
      (fun c hc => hpost c ((rtrim_leading post).sublist.subset hc)) hne]
  rw [if_neg (show ¬ (asciiLower lang ≠ lang) from fun hcon => hcon hlow),
    if_neg (show ¬ ([pyStrip S] = ([] : List (List Char))) from List.cons_ne_nil _ _)]
  rfl

/-- Witness for the amended C5 on a concrete well-formed text. -/
theorem extract_code_block_roundtrip_witness :
    extract_code_block
        (("Answer:\n".toList) ++ ((fence ++ "python".toList) ++
          ('\n' :: (("\nprint(1)\n".toList) ++ (fence ++ "\nDone".toList)))))
        ("python".toList) = pyStrip ("\nprint(1)\n".toList) :=
  extract_code_block_roundtrip ("Answer:\n".toList) ("python".toList)
    ("\nprint(1)\n".toList) ("\nDone".toList)
    (by decide) (by decide) (by decide) (by decide) (by decide) (by decide)
